import Mathlib

/-!
Verification of the schema-version synchronization subsystem of the DDL
package (`src/ddl/syncer.go`).

The Go code is shallowly embedded: the external etcd store is abstracted as
an oracle giving, for each attempt/round, the outcome of the corresponding
store call (put / delete / prefix scan), and each operation is instrumented
with an event trace recording the observable actions it performs (context
checks, store calls with their per-attempt timeout, sleeps).  Machine
integers are modelled as `Int` with explicit `int64` bounds where they
matter (inside `strconv.Atoi`).
-/

namespace Syncer

/-- Model of Go `error` values flowing through the syncer.  `errors.Trace`
(from juju/errors) wraps an error keeping its cause; `goctx.Canceled` and
`goctx.DeadlineExceeded` are the two context errors; any other store error
is modelled by `store msg`. -/
inductive GoError where
  | canceled : GoError
  | deadlineExceeded : GoError
  | store (msg : String) : GoError
  | traced (e : GoError) : GoError
deriving DecidableEq, Repr

/-- The cause of an error: `errors.Cause` strips `errors.Trace` wrappers. -/
def GoError.cause : GoError → GoError
  | .traced e => e.cause
  | e => e

/-- Model of `errors.Trace(err)` for `err : error` (which may be Go `nil` = `none`):
juju/errors returns `nil` unchanged and wraps any non-nil error. -/
def goTrace : Option GoError → Option GoError
  | none => none
  | some e => some (.traced e)

/-- Model of `terror.ErrorEqual(a, b)`: two errors are equal when their causes are. -/
def errorEqual (a b : GoError) : Bool :=
  a.cause == b.cause

/-- Predicate `isContextFinished` from `syncer.go`: the error equals `goctx.Canceled`
or `goctx.DeadlineExceeded` (up to tracing). -/
def isContextFinished (e : GoError) : Bool :=
  errorEqual e .canceled || errorEqual e .deadlineExceeded

/- Constants from `syncer.go` (durations in milliseconds). -/

def ddlAllSchemaVersions : String := "/tidb/ddl/all_schema_versions"
def ddlGlobalSchemaVersion : String := "/tidb/ddl/global_schema_version"
def initialVersion : String := "0"
def putKeyNoRetry : Int := 1
def keyOpDefaultRetryCnt : Int := 3
def putKeyRetryUnlimited : Int := 2 ^ 63 - 1
def keyOpDefaultTimeout : Nat := 2000
def putKeyRetryInterval : Nat := 30
def checkVersInterval : Nat := 20
def checkVersFirstWaitTime : Nat := 50

/-- Constructor `NewSchemaSyncer` computes `selfSchemaVerPath` as
`fmt.Sprintf("%s/%s", ddlAllSchemaVersions, id)`. -/
def selfSchemaVerPath (id : String) : String :=
  ddlAllSchemaVersions ++ "/" ++ id

/-- Model of `strconv.FormatInt(version, 10)`: decimal encoding of an `int64`. -/
def formatInt (v : Int) : String :=
  toString v

/-- Decimal digits to a natural number, failing on any non-digit
character. -/
def decDigits (cs : List Char) : Option Nat :=
  cs.foldl (fun acc c =>
    acc.bind fun n => if c.isDigit then some (n * 10 + (c.toNat - 48)) else none)
    (some 0)

/-- Model of `strconv.Atoi`, i.e. `ParseInt(s, 10, 0)` on a 64-bit platform: an
optional sign followed by at least one decimal digit, failing on any other
character, on the empty input and on values outside the `int64` range. -/
def atoi (s : String) : Option Int :=
  let cs := s.toList
  let signDigits : Int × List Char :=
    match cs with
    | '+' :: rest => (1, rest)
    | '-' :: rest => (-1, rest)
    | rest => (1, rest)
  match signDigits with
  | (sign, ds) =>
    if ds.isEmpty then none
    else match decDigits ds with
      | none => none
      | some n =>
        let v : Int := sign * n
        if -(2 ^ 63) ≤ v ∧ v ≤ 2 ^ 63 - 1 then some v else none

/-- Observable events of the retrying writer `putKV` and of
`RemoveSelfVersionPath`: a context-cancellation check, a store put bounded
by a per-attempt timeout, a store delete bounded by a per-attempt timeout,
and a sleep of a given duration, each tagged with the 0-based attempt
index. -/
inductive OpEv where
  | ctxCheck (i : Nat) : OpEv
  | putOp (i : Nat) (key val : String) (timeoutMs : Nat) : OpEv
  | delOp (i : Nat) (key : String) (timeoutMs : Nat) : OpEv
  | sleepOp (i : Nat) (ms : Nat) : OpEv
deriving DecidableEq, Repr

/-- Number of store put attempts recorded in a trace. -/
def countPuts (evs : List OpEv) : Nat :=
  (evs.filter fun ev => match ev with | .putOp _ _ _ _ => true | _ => false).length

/-- Number of store delete attempts recorded in a trace. -/
def countDels (evs : List OpEv) : Nat :=
  (evs.filter fun ev => match ev with | .delOp _ _ _ => true | _ => false).length

/-- Number of sleeps recorded in a trace. -/
def countSleeps (evs : List OpEv) : Nat :=
  (evs.filter fun ev => match ev with | .sleepOp _ _ => true | _ => false).length

/-- The loop of `putKV`, by remaining iteration count `n`, current attempt
index `i` and the current value of the `err` variable.  `ctxDone i` tells
whether `ctx.Done()` is selectable at the top of attempt `i`, `ctxErr` is
`ctx.Err()` then, and `putRes i key val` is the outcome of the etcd `Put`
of attempt `i` (`none` = success).  Mirrors `syncer.go` lines 76–95:
check the context, put under a `keyOpDefaultTimeout` child context, return
on success, otherwise log, sleep `putKeyRetryInterval` and retry; after the
loop return `errors.Trace(err)`. -/
def putKVLoop (ctxDone : Nat → Bool) (ctxErr : GoError)
    (putRes : Nat → String → String → Option GoError) (key val : String) :
    Nat → Nat → Option GoError → Option GoError × List OpEv
  | 0, _, err => (goTrace err, [])
  | n + 1, i, _ =>
    if ctxDone i then (goTrace (some ctxErr), [.ctxCheck i])
    else
      match putRes i key val with
      | none => (none, [.ctxCheck i, .putOp i key val keyOpDefaultTimeout])
      | some e =>
        let rest := putKVLoop ctxDone ctxErr putRes key val n (i + 1) (some e)
        (rest.1, .ctxCheck i :: .putOp i key val keyOpDefaultTimeout ::
          .sleepOp i putKeyRetryInterval :: rest.2)

/-- Function `putKV(ctx, retryCnt, key, val)`.  `retryCnt` is a Go `int`; the loop
`for i := 0; i < retryCnt; i++` runs `max retryCnt 0` times. -/
def putKV (ctxDone : Nat → Bool) (ctxErr : GoError)
    (putRes : Nat → String → String → Option GoError)
    (retryCnt : Int) (key val : String) : Option GoError × List OpEv :=
  putKVLoop ctxDone ctxErr putRes key val retryCnt.toNat 0 none

/-- Method `UpdateSelfVersion(ctx, version)`: a single-attempt (`putKeyNoRetry`)
write of `strconv.FormatInt(version, 10)` to the node's self path. -/
def updateSelfVersion (ctxDone : Nat → Bool) (ctxErr : GoError)
    (putRes : Nat → String → String → Option GoError)
    (id : String) (version : Int) : Option GoError × List OpEv :=
  putKV ctxDone ctxErr putRes putKeyNoRetry (selfSchemaVerPath id) (formatInt version)

/-- The loop of `RemoveSelfVersionPath`, by remaining iteration count,
attempt index and the `err` variable.  `delRes i key` is the outcome of the
etcd `Delete` of attempt `i`.  Mirrors `syncer.go` lines 128–141: the loop
runs under a fresh `goctx.Background()` (so there is no context check),
each delete runs under a `keyOpDefaultTimeout` child context, success
returns `nil`, failure logs and retries with no sleep; after the loop
return `errors.Trace(err)`. -/
def removeLoop (delRes : Nat → String → Option GoError) (key : String) :
    Nat → Nat → Option GoError → Option GoError × List OpEv
  | 0, _, err => (goTrace err, [])
  | n + 1, i, _ =>
    match delRes i key with
    | none => (none, [.delOp i key keyOpDefaultTimeout])
    | some e =>
      let rest := removeLoop delRes key n (i + 1) (some e)
      (rest.1, .delOp i key keyOpDefaultTimeout :: rest.2)

/-- Method `RemoveSelfVersionPath()`: `keyOpDefaultRetryCnt` delete attempts of the
node's self path. -/
def removeSelfVersionPath (delRes : Nat → String → Option GoError)
    (id : String) : Option GoError × List OpEv :=
  removeLoop delRes (selfSchemaVerPath id) keyOpDefaultRetryCnt.toNat 0 none

/-- One iteration's worth of external behaviour for the polling loop of
`OwnerCheckAllVersions`: whether `ctx.Done()` is selectable at the top of
the iteration, and the result of the prefix scan
`etcdCli.Get(ctx, ddlAllSchemaVersions, WithPrefix())` — either an error or
the list of key/value pairs under the prefix. -/
structure Round where
  ctxDone : Bool
  scan : Except GoError (List (String × String))
deriving Repr

/-- Observable events of `OwnerCheckAllVersions`: the initial
`checkVersFirstWaitTime` sleep, one prefix scan per loop iteration, and the
`checkVersInterval` sleep after a not-yet-converged round. -/
inductive CheckEv where
  | waitFirst : CheckEv
  | scanEv : CheckEv
  | sleepPoll : CheckEv
deriving DecidableEq, Repr

/-- Number of polling-interval sleeps recorded in a trace of the
convergence checker. -/
def countPollSleeps (evs : List CheckEv) : Nat :=
  (evs.filter fun ev => match ev with | .sleepPoll => true | _ => false).length

/-- How a run of the polling loop of `OwnerCheckAllVersions` ends:
`retNil kvs memo` — the call returned `nil`, where `kvs` is the final
successful scan's contents and `memo` the `updatedMap` keys going into that
scan; `retErr e` — the call returned `errors.Trace(e)`;
`fuelOut memo` — the supplied rounds were exhausted with the loop still
running and `updatedMap` keys `memo`. -/
inductive Outcome where
  | retNil (kvs : List (String × String)) (memo : List String) : Outcome
  | retErr (e : GoError) : Outcome
  | fuelOut (memo : List String) : Outcome
deriving DecidableEq, Repr

/-- The inner record scan of `OwnerCheckAllVersions` (lines 171–189):
walk the scanned key/value pairs with the current `updatedMap` keys
`memo`; skip records already in `memo`; on a parse failure or a version
different from `latestVer` set `succ := false` and break; on a match add
the key to `updatedMap`.  Returns the final `succ` and the `updatedMap`
keys. -/
def scanKvs (latestVer : Int) (memo : List String) :
    List (String × String) → Bool × List String
  | [] => (true, memo)
  | (k, v) :: rest =>
    if k ∈ memo then scanKvs latestVer memo rest
    else
      match atoi v with
      | none => (false, memo)
      | some ver => if ver ≠ latestVer then (false, memo)
                    else scanKvs latestVer (memo ++ [k]) rest

/-- The polling loop of `OwnerCheckAllVersions` (lines 155–194), driven by
the list of per-iteration external behaviours `rounds` (the fuel): check
`ctx.Done()` and return `errors.Trace(ctx.Err())` if selectable; scan the
prefix; on a scan error return it if it is a context error, otherwise log
and `continue` (no sleep); on a successful scan run `scanKvs`; if it
converged return `nil`, otherwise sleep `checkVersInterval` and loop. -/
def ownerCheckLoop (ctxErr : GoError) (latestVer : Int) :
    List String → List Round → Outcome × List CheckEv
  | memo, [] => (.fuelOut memo, [])
  | memo, r :: rest =>
    if r.ctxDone then (.retErr ctxErr, [])
    else
      match r.scan with
      | .error e =>
        if isContextFinished e then (.retErr e, [.scanEv])
        else
          let res := ownerCheckLoop ctxErr latestVer memo rest
          (res.1, .scanEv :: res.2)
      | .ok kvs =>
        match scanKvs latestVer memo kvs with
        | (true, _) => (.retNil kvs memo, [.scanEv])
        | (false, memo') =>
          let res := ownerCheckLoop ctxErr latestVer memo' rest
          (res.1, .scanEv :: .sleepPoll :: res.2)

/-- Method `OwnerCheckAllVersions(ctx, latestVer)` (lines 152–195): sleep
`checkVersFirstWaitTime`, start with an empty `updatedMap`, and run the
polling loop. -/
def ownerCheckAllVersions (ctxErr : GoError) (latestVer : Int)
    (rounds : List Round) : Outcome × List CheckEv :=
  let res := ownerCheckLoop ctxErr latestVer [] rounds
  (res.1, .waitFirst :: res.2)

/-- A model of the etcd keyspace for the bootstrap transaction: each key
maps to its current value, `none` meaning the key does not exist (its
`CreateRevision` is 0). -/
def Store : Type := String → Option String

/-- The bootstrap transaction of `Init` (lines 99–102):
`If(Compare(CreateRevision(ddlGlobalSchemaVersion), "=", 0))
 .Then(OpPut(ddlGlobalSchemaVersion, initialVersion)).Commit()` — an atomic
create-if-absent of the global schema version key with value `"0"`,
executed against the linearizable store. -/
def initBootstrap (store : Store) : Store :=
  if store ddlGlobalSchemaVersion = none then
    fun k => if k = ddlGlobalSchemaVersion then some initialVersion else store k
  else store

/-- Trace of one failed `putKV` attempt at index `j`: context check, put,
retry sleep. -/
def failedAttemptEvs (key val : String) (j : Nat) : List OpEv :=
  [.ctxCheck j, .putOp j key val keyOpDefaultTimeout,
   .sleepOp j putKeyRetryInterval]

/-- Trace of `m` consecutive failed `putKV` attempts starting at index
`i`. -/
def failTrace (key val : String) : Nat → Nat → List OpEv
  | _, 0 => []
  | i, m + 1 => failedAttemptEvs key val i ++ failTrace key val (i + 1) m

theorem countPuts_append (a b : List OpEv) :
    countPuts (a ++ b) = countPuts a + countPuts b := by
  simp [countPuts, List.filter_append]

theorem countSleeps_append (a b : List OpEv) :
    countSleeps (a ++ b) = countSleeps a + countSleeps b := by
  simp [countSleeps, List.filter_append]

theorem countPuts_failTrace (key val : String) :
    ∀ m i, countPuts (failTrace key val i m) = m := by
  intro m
  induction m with
  | zero => intro i; rfl
  | succ m ih =>
    intro i
    rw [failTrace, countPuts_append, ih]
    have h1 : countPuts (failedAttemptEvs key val i) = 1 := rfl
    omega

theorem countSleeps_failTrace (key val : String) :
    ∀ m i, countSleeps (failTrace key val i m) = m := by
  intro m
  induction m with
  | zero => intro i; rfl
  | succ m ih =>
    intro i
    rw [failTrace, countSleeps_append, ih]
    have h1 : countSleeps (failedAttemptEvs key val i) = 1 := rfl
    omega

theorem putKVLoop_step_ctxDone (ctxDone : Nat → Bool) (ctxErr : GoError)
    (putRes : Nat → String → String → Option GoError) (key val : String)
    (n i : Nat) (err0 : Option GoError) (h : ctxDone i = true) :
    putKVLoop ctxDone ctxErr putRes key val (n + 1) i err0
      = (some (.traced ctxErr), [.ctxCheck i]) := by
  simp [putKVLoop, h, goTrace]

theorem putKVLoop_step_ok (ctxDone : Nat → Bool) (ctxErr : GoError)
    (putRes : Nat → String → String → Option GoError) (key val : String)
    (n i : Nat) (err0 : Option GoError) (hc : ctxDone i = false)
    (hp : putRes i key val = none) :
    putKVLoop ctxDone ctxErr putRes key val (n + 1) i err0
      = (none, [.ctxCheck i, .putOp i key val keyOpDefaultTimeout]) := by
  simp [putKVLoop, hc, hp]

theorem putKVLoop_step_fail (ctxDone : Nat → Bool) (ctxErr : GoError)
    (putRes : Nat → String → String → Option GoError) (key val : String)
    (n i : Nat) (err0 : Option GoError) (e : GoError) (hc : ctxDone i = false)
    (hp : putRes i key val = some e) :
    putKVLoop ctxDone ctxErr putRes key val (n + 1) i err0
      = ((putKVLoop ctxDone ctxErr putRes key val n (i + 1) (some e)).1,
         .ctxCheck i :: .putOp i key val keyOpDefaultTimeout ::
           .sleepOp i putKeyRetryInterval ::
           (putKVLoop ctxDone ctxErr putRes key val n (i + 1) (some e)).2) := by
  simp [putKVLoop, hc, hp]

theorem putKVLoop_all_fail (ctxDone : Nat → Bool) (ctxErr : GoError)
    (putRes : Nat → String → String → Option GoError) (key val : String)
    (eF : Nat → GoError) :
    ∀ n i, (∀ j, j ≤ n → ctxDone (i + j) = false) →
    (∀ j, j ≤ n → putRes (i + j) key val = some (eF (i + j))) →
    ∀ err0, putKVLoop ctxDone ctxErr putRes key val (n + 1) i err0
      = (some (.traced (eF (i + n))), failTrace key val i (n + 1)) := by
  intro n
  induction n with
  | zero =>
    intro i hctx hput err0
    have hc0 : ctxDone i = false := by have := hctx 0 (by omega); simpa using this
    have hp0 : putRes i key val = some (eF i) := by
      have := hput 0 (by omega); simpa using this
    rw [putKVLoop_step_fail ctxDone ctxErr putRes key val 0 i err0 (eF i) hc0 hp0]
    simp [putKVLoop, failTrace, failedAttemptEvs, goTrace]
  | succ n ih =>
    intro i hctx hput err0
    have hc0 : ctxDone i = false := by have := hctx 0 (by omega); simpa using this
    have hp0 : putRes i key val = some (eF i) := by
      have := hput 0 (by omega); simpa using this
    have ih' := ih (i + 1)
      (fun j hj => by have := hctx (j + 1) (by omega); simpa [Nat.add_assoc, Nat.add_comm 1 j] using this)
      (fun j hj => by have := hput (j + 1) (by omega); simpa [Nat.add_assoc, Nat.add_comm 1 j] using this)
      (some (eF i))
    rw [putKVLoop_step_fail ctxDone ctxErr putRes key val (n + 1) i err0 (eF i) hc0 hp0,
      ih']
    have hidx : i + 1 + n = i + (n + 1) := by omega
    rw [hidx]
    simp [failTrace, failedAttemptEvs]

theorem putKVLoop_succ_at (ctxDone : Nat → Bool) (ctxErr : GoError)
    (putRes : Nat → String → String → Option GoError) (key val : String)
    (eF : Nat → GoError) :
    ∀ m n i, m < n →
    (∀ j, j < m → ctxDone (i + j) = false) →
    (∀ j, j < m → putRes (i + j) key val = some (eF (i + j))) →
    ctxDone (i + m) = false →
    putRes (i + m) key val = none →
    ∀ err0, putKVLoop ctxDone ctxErr putRes key val n i err0
      = (none, failTrace key val i m
          ++ [.ctxCheck (i + m), .putOp (i + m) key val keyOpDefaultTimeout]) := by
  intro m
  induction m with
  | zero =>
    intro n i hmn _ _ hcm hpm err0
    cases n with
    | zero => omega
    | succ n =>
      simp only [Nat.add_zero] at hcm hpm
      rw [putKVLoop_step_ok ctxDone ctxErr putRes key val n i err0 hcm hpm]
      simp [failTrace]
  | succ m ih =>
    intro n i hmn hctx hput hcm hpm err0
    cases n with
    | zero => omega
    | succ n =>
      have hc0 : ctxDone i = false := by have := hctx 0 (by omega); simpa using this
      have hp0 : putRes i key val = some (eF i) := by
        have := hput 0 (by omega); simpa using this
      have hsh : i + 1 + m = i + (m + 1) := by omega
      have ih' := ih n (i + 1) (by omega)
        (fun j hj => by have := hctx (j + 1) (by omega); simpa [Nat.add_assoc, Nat.add_comm 1 j] using this)
        (fun j hj => by have := hput (j + 1) (by omega); simpa [Nat.add_assoc, Nat.add_comm 1 j] using this)
        (by rw [hsh]; exact hcm) (by rw [hsh]; exact hpm) (some (eF i))
      rw [putKVLoop_step_fail ctxDone ctxErr putRes key val n i err0 (eF i) hc0 hp0,
        ih', hsh]
      simp [failTrace, failedAttemptEvs]

/-- Abort of `putKV` when the context is done at the top of attempt `m`
after `m` failed attempts: the loop returns `Trace(ctx.Err())` right after
the context check, performing no put and no sleep for that attempt. -/
theorem putKVLoop_ctx_abort (ctxDone : Nat → Bool) (ctxErr : GoError)
    (putRes : Nat → String → String → Option GoError) (key val : String)
    (eF : Nat → GoError) :
    ∀ m n i, m < n →
    (∀ j, j < m → ctxDone (i + j) = false) →
    (∀ j, j < m → putRes (i + j) key val = some (eF (i + j))) →
    ctxDone (i + m) = true →
    ∀ err0, putKVLoop ctxDone ctxErr putRes key val n i err0
      = (some (.traced ctxErr), failTrace key val i m ++ [.ctxCheck (i + m)]) := by
  intro m
  induction m with
  | zero =>
    intro n i hmn _ _ hcm err0
    cases n with
    | zero => omega
    | succ n =>
      simp only [Nat.add_zero] at hcm
      rw [putKVLoop_step_ctxDone ctxDone ctxErr putRes key val n i err0 hcm]
      simp [failTrace]
  | succ m ih =>
    intro n i hmn hctx hput hcm err0
    cases n with
    | zero => omega
    | succ n =>
      have hc0 : ctxDone i = false := by have := hctx 0 (by omega); simpa using this
      have hp0 : putRes i key val = some (eF i) := by
        have := hput 0 (by omega); simpa using this
      have hsh : i + 1 + m = i + (m + 1) := by omega
      have ih' := ih n (i + 1) (by omega)
        (fun j hj => by have := hctx (j + 1) (by omega); simpa [Nat.add_assoc, Nat.add_comm 1 j] using this)
        (fun j hj => by have := hput (j + 1) (by omega); simpa [Nat.add_assoc, Nat.add_comm 1 j] using this)
        (by rw [hsh]; exact hcm) (some (eF i))
      rw [putKVLoop_step_fail ctxDone ctxErr putRes key val n i err0 (eF i) hc0 hp0,
        ih', hsh]
      simp [failTrace, failedAttemptEvs]

theorem removeLoop_step_ok (delRes : Nat → String → Option GoError)
    (key : String) (n i : Nat) (err0 : Option GoError)
    (hd : delRes i key = none) :
    removeLoop delRes key (n + 1) i err0
      = (none, [.delOp i key keyOpDefaultTimeout]) := by
  simp [removeLoop, hd]

theorem removeLoop_step_fail (delRes : Nat → String → Option GoError)
    (key : String) (n i : Nat) (err0 : Option GoError) (e : GoError)
    (hd : delRes i key = some e) :
    removeLoop delRes key (n + 1) i err0
      = ((removeLoop delRes key n (i + 1) (some e)).1,
         .delOp i key keyOpDefaultTimeout ::
           (removeLoop delRes key n (i + 1) (some e)).2) := by
  simp [removeLoop, hd]

theorem removeLoop_trace_shape (delRes : Nat → String → Option GoError)
    (key : String) :
    ∀ n i err0,
    countSleeps (removeLoop delRes key n i err0).2 = 0
    ∧ countDels (removeLoop delRes key n i err0).2 ≤ n
    ∧ ∀ ev ∈ (removeLoop delRes key n i err0).2,
        ∃ j, i ≤ j ∧ j < i + n ∧ ev = .delOp j key keyOpDefaultTimeout := by
  intro n
  induction n with
  | zero =>
    intro i err0
    refine ⟨rfl, by simp [removeLoop, countDels, goTrace], ?_⟩
    intro ev hev
    simp [removeLoop] at hev
  | succ n ih =>
    intro i err0
    cases hd : delRes i key with
    | none =>
      rw [removeLoop_step_ok delRes key n i err0 hd]
      refine ⟨rfl, by simp [countDels], ?_⟩
      intro ev hev
      simp at hev
      exact ⟨i, le_refl i, by omega, hev⟩
    | some e =>
      rw [removeLoop_step_fail delRes key n i err0 e hd]
      obtain ⟨hs, hc, hall⟩ := ih (i + 1) (some e)
      refine ⟨?_, ?_, ?_⟩
      · show countSleeps (OpEv.delOp i key keyOpDefaultTimeout
            :: (removeLoop delRes key n (i + 1) (some e)).2) = 0
        have h1 : countSleeps (OpEv.delOp i key keyOpDefaultTimeout
            :: (removeLoop delRes key n (i + 1) (some e)).2)
            = countSleeps (removeLoop delRes key n (i + 1) (some e)).2 := by
          simp [countSleeps]
        rw [h1, hs]
      · show countDels (OpEv.delOp i key keyOpDefaultTimeout
            :: (removeLoop delRes key n (i + 1) (some e)).2) ≤ n + 1
        have h1 : countDels (OpEv.delOp i key keyOpDefaultTimeout
            :: (removeLoop delRes key n (i + 1) (some e)).2)
            = countDels (removeLoop delRes key n (i + 1) (some e)).2 + 1 := by
          simp [countDels]
        omega
      · intro ev hev
        rcases List.mem_cons.mp hev with h | h
        · exact ⟨i, le_refl i, by omega, h⟩
        · obtain ⟨j, hj1, hj2, hj3⟩ := hall ev h
          exact ⟨j, by omega, by omega, hj3⟩

theorem removeLoop_all_fail (delRes : Nat → String → Option GoError)
    (key : String) (eF : Nat → GoError) :
    ∀ n i, (∀ j, j ≤ n → delRes (i + j) key = some (eF (i + j))) →
    ∀ err0, (removeLoop delRes key (n + 1) i err0).1
      = some (.traced (eF (i + n))) := by
  intro n
  induction n with
  | zero =>
    intro i hf err0
    have h0 : delRes i key = some (eF i) := by have := hf 0 (by omega); simpa using this
    rw [removeLoop_step_fail delRes key 0 i err0 (eF i) h0]
    simp [removeLoop, goTrace]
  | succ n ih =>
    intro i hf err0
    have h0 : delRes i key = some (eF i) := by have := hf 0 (by omega); simpa using this
    have ih' := ih (i + 1)
      (fun j hj => by have := hf (j + 1) (by omega); simpa [Nat.add_assoc, Nat.add_comm 1 j] using this)
      (some (eF i))
    rw [removeLoop_step_fail delRes key (n + 1) i err0 (eF i) h0]
    have hsh : i + 1 + n = i + (n + 1) := by omega
    rw [show ((removeLoop delRes key (n + 1) (i + 1) (some (eF i))).1,
        OpEv.delOp i key keyOpDefaultTimeout ::
          (removeLoop delRes key (n + 1) (i + 1) (some (eF i))).2).1
      = (removeLoop delRes key (n + 1) (i + 1) (some (eF i))).1 from rfl, ih', hsh]

/-- C2: with a bounded retry budget `N ≥ 1` and a context that is never
done, `putKV` on a store whose put fails on attempts `1..N-1` and succeeds
on attempt `N` returns `nil` having made exactly `N` put attempts, and on a
store whose put fails on all `N` attempts it returns the last attempt's
error (wrapped by `errors.Trace`). -/
theorem putKV_bounded_retry_semantics (ctxDone : Nat → Bool) (ctxErr : GoError)
    (putRes : Nat → String → String → Option GoError) (key val : String)
    (eF : Nat → GoError) (N : Nat) (hN : 1 ≤ N)
    (hctx : ∀ i, ctxDone i = false) :
    ((∀ i, i + 1 < N → putRes i key val = some (eF i)) →
      putRes (N - 1) key val = none →
      (putKV ctxDone ctxErr putRes (N : Int) key val).1 = none
      ∧ countPuts (putKV ctxDone ctxErr putRes (N : Int) key val).2 = N)
    ∧ ((∀ i, i < N → putRes i key val = some (eF i)) →
      (putKV ctxDone ctxErr putRes (N : Int) key val).1
          = some (.traced (eF (N - 1)))
      ∧ countPuts (putKV ctxDone ctxErr putRes (N : Int) key val).2 = N) := by
  obtain ⟨M, rfl⟩ : ∃ M, N = M + 1 := ⟨N - 1, by omega⟩
  have htn : ((M + 1 : Nat) : Int).toNat = M + 1 := by omega
  constructor
  · intro hfail hsucc
    have h := putKVLoop_succ_at ctxDone ctxErr putRes key val eF M (M + 1) 0
      (by omega) (fun j hj => by simpa using hctx j)
      (fun j hj => by have := hfail j (by omega); simpa using this)
      (by simpa using hctx M) (by simpa using hsucc) none
    unfold putKV
    rw [htn, h]
    refine ⟨rfl, ?_⟩
    rw [countPuts_append, countPuts_failTrace]
    rfl
  · intro hfail
    have h := putKVLoop_all_fail ctxDone ctxErr putRes key val eF M 0
      (fun j hj => by simpa using hctx j)
      (fun j hj => by have := hfail j (by omega); simpa using this) none
    unfold putKV
    rw [htn, h]
    refine ⟨by simp, ?_⟩
    rw [show ((some ((eF (0 + M)).traced), failTrace key val 0 (M + 1)).2
        = failTrace key val 0 (M + 1)) from rfl, countPuts_failTrace]

/-- Witness for `putKV_bounded_retry_semantics` at `N = 2`: one failure
then a success returns `nil` with two put attempts. -/
theorem putKV_bounded_retry_semantics_witness :
    (putKV (fun _ => false) .canceled
      (fun i _ _ => if i = 0 then some (.store "e0") else none) (2 : Int)
      "k" "v").1 = none
    ∧ countPuts (putKV (fun _ => false) .canceled
      (fun i _ _ => if i = 0 then some (.store "e0") else none) (2 : Int)
      "k" "v").2 = 2 :=
  (putKV_bounded_retry_semantics (fun _ => false) .canceled
    (fun i _ _ => if i = 0 then some (.store "e0") else none) "k" "v"
    (fun _ => .store "e0") 2 (by omega) (fun _ => rfl)).1
    (by intro i hi
        have h0 : i = 0 := by omega
        subst h0
        rfl)
    rfl

/-- C5: if the context is already done at the start of attempt `m` (all
earlier attempts having failed), `putKV` aborts with `Trace(ctx.Err())`:
the trace is the `m` failed attempts followed by a bare context check, so
no further put and no further sleep happen. -/
theorem putKV_context_done_abort (ctxDone : Nat → Bool) (ctxErr : GoError)
    (putRes : Nat → String → String → Option GoError) (key val : String)
    (eF : Nat → GoError) (retryCnt : Int) (m : Nat)
    (hm : (m : Int) < retryCnt)
    (hctx : ∀ j, j < m → ctxDone j = false)
    (hput : ∀ j, j < m → putRes j key val = some (eF j))
    (hdone : ctxDone m = true) :
    putKV ctxDone ctxErr putRes retryCnt key val
      = (some (.traced ctxErr), failTrace key val 0 m ++ [.ctxCheck m])
    ∧ countPuts (putKV ctxDone ctxErr putRes retryCnt key val).2 = m
    ∧ countSleeps (putKV ctxDone ctxErr putRes retryCnt key val).2 = m := by
  have hmn : m < retryCnt.toNat := by omega
  have h := putKVLoop_ctx_abort ctxDone ctxErr putRes key val eF m retryCnt.toNat 0
    hmn (fun j hj => by simpa using hctx j hj)
    (fun j hj => by simpa using hput j hj) (by simpa using hdone) none
  simp only [Nat.zero_add] at h
  unfold putKV
  rw [h]
  refine ⟨rfl, ?_, ?_⟩
  · show countPuts (failTrace key val 0 m ++ [OpEv.ctxCheck m]) = m
    rw [countPuts_append, countPuts_failTrace]
    rfl
  · show countSleeps (failTrace key val 0 m ++ [OpEv.ctxCheck m]) = m
    rw [countSleeps_append, countSleeps_failTrace]
    rfl

/-- Witness for `putKV_context_done_abort`: budget 3, first attempt fails,
context done at the start of attempt 1. -/
theorem putKV_context_done_abort_witness :
    putKV (fun i => decide (i = 1)) .canceled
      (fun _ _ _ => some (.store "e")) (3 : Int) "k" "v"
      = (some (.traced .canceled),
         failTrace "k" "v" 0 1 ++ [.ctxCheck 1])
    ∧ countPuts (putKV (fun i => decide (i = 1)) .canceled
        (fun _ _ _ => some (.store "e")) (3 : Int) "k" "v").2 = 1
    ∧ countSleeps (putKV (fun i => decide (i = 1)) .canceled
        (fun _ _ _ => some (.store "e")) (3 : Int) "k" "v").2 = 1 :=
  putKV_context_done_abort (fun i => decide (i = 1)) .canceled
    (fun _ _ _ => some (.store "e")) "k" "v" (fun _ => .store "e") 3 1
    (by omega)
    (by intro j hj
        have h0 : j = 0 := by omega
        subst h0
        rfl)
    (fun j hj => rfl) rfl

/-- C10: a non-positive retry budget makes `putKV` return `nil` with an
empty trace: no put, no context check, no sleep. -/
theorem putKV_nonpositive_budget (ctxDone : Nat → Bool) (ctxErr : GoError)
    (putRes : Nat → String → String → Option GoError) (key val : String)
    (r : Int) (hr : r ≤ 0) :
    putKV ctxDone ctxErr putRes r key val = (none, []) := by
  unfold putKV
  have h0 : r.toNat = 0 := by omega
  rw [h0]
  rfl

/-- Witness for `putKV_nonpositive_budget` at budget 0. -/
theorem putKV_nonpositive_budget_witness :
    putKV (fun _ => false) .canceled (fun _ _ _ => some (.store "e"))
      (0 : Int) "k" "v" = (none, []) :=
  putKV_nonpositive_budget (fun _ => false) .canceled
    (fun _ _ _ => some (.store "e")) "k" "v" 0 (by omega)

/-- C4: `UpdateSelfVersion` issues at most one store put, always of the
decimal encoding of the version to the node's self-version path, and on
failure of that single attempt returns the store error wrapped by
`errors.Trace`. -/
theorem updateSelfVersion_single_attempt (ctxDone : Nat → Bool)
    (ctxErr : GoError) (putRes : Nat → String → String → Option GoError)
    (id : String) (version : Int) :
    (∀ ev ∈ (updateSelfVersion ctxDone ctxErr putRes id version).2,
        ev = .ctxCheck 0
        ∨ ev = .putOp 0 (selfSchemaVerPath id) (formatInt version)
            keyOpDefaultTimeout
        ∨ ev = .sleepOp 0 putKeyRetryInterval)
    ∧ countPuts (updateSelfVersion ctxDone ctxErr putRes id version).2 ≤ 1
    ∧ (∀ e, ctxDone 0 = false →
        putRes 0 (selfSchemaVerPath id) (formatInt version) = some e →
        (updateSelfVersion ctxDone ctxErr putRes id version).1
          = some (.traced e)) := by
  have hu : updateSelfVersion ctxDone ctxErr putRes id version
      = putKVLoop ctxDone ctxErr putRes (selfSchemaVerPath id)
          (formatInt version) 1 0 none := rfl
  cases hc : ctxDone 0 with
  | true =>
    have h := putKVLoop_step_ctxDone ctxDone ctxErr putRes
      (selfSchemaVerPath id) (formatInt version) 0 0 none hc
    rw [hu, h]
    refine ⟨?_, by simp [countPuts], ?_⟩
    · intro ev hev
      simp at hev
      exact Or.inl hev
    · intro e hfalse
      cases hfalse
  | false =>
    cases hp : putRes 0 (selfSchemaVerPath id) (formatInt version) with
    | none =>
      have h := putKVLoop_step_ok ctxDone ctxErr putRes
        (selfSchemaVerPath id) (formatInt version) 0 0 none hc hp
      rw [hu, h]
      refine ⟨?_, by simp [countPuts], ?_⟩
      · intro ev hev
        rcases List.mem_cons.mp hev with h1 | h1
        · exact Or.inl h1
        · simp at h1
          exact Or.inr (Or.inl h1)
      · intro e _ hsome
        exact Option.noConfusion hsome
    | some e0 =>
      have h := putKVLoop_step_fail ctxDone ctxErr putRes
        (selfSchemaVerPath id) (formatInt version) 0 0 none e0 hc hp
      rw [hu, h]
      have hrest : putKVLoop ctxDone ctxErr putRes (selfSchemaVerPath id)
          (formatInt version) 0 1 (some e0) = (some (.traced e0), []) := rfl
      rw [hrest]
      refine ⟨?_, by simp [countPuts], ?_⟩
      · intro ev hev
        simp at hev
        rcases hev with h1 | h1 | h1
        · exact Or.inl h1
        · exact Or.inr (Or.inl h1)
        · exact Or.inr (Or.inr h1)
      · intro e _ hsome
        injection hsome with he
        subst he
        rfl

/-- Witness for `updateSelfVersion_single_attempt`: a failing single
attempt surfaces the traced store error. -/
theorem updateSelfVersion_single_attempt_witness :
    (updateSelfVersion (fun _ => false) .canceled
      (fun _ _ _ => some (.store "down")) "node1" 7).1
      = some (.traced (.store "down")) :=
  (updateSelfVersion_single_attempt (fun _ => false) .canceled
    (fun _ _ _ => some (.store "down")) "node1" 7).2.2
    (.store "down") rfl rfl

/-- C3 counterexample: all three deletes fail; `RemoveSelfVersionPath`
makes its 3 attempts and returns the traced last error, but its trace
contains no sleep at all, refuting the claimed fixed delay between
attempts. -/
theorem removeSelfVersionPath_no_delay :
    countDels (removeSelfVersionPath
        (fun _ _ => some (.store "boom")) "n1").2 = 3
    ∧ countSleeps (removeSelfVersionPath
        (fun _ _ => some (.store "boom")) "n1").2 = 0
    ∧ (removeSelfVersionPath (fun _ _ => some (.store "boom")) "n1").1
        = some (.traced (.store "boom")) :=
  ⟨rfl, rfl, rfl⟩

/-- C3 (amended): `RemoveSelfVersionPath` makes at most 3 delete attempts
with no delay between attempts, every attempt targets the node's
self-version path under the fixed per-attempt timeout, and if all 3
attempts fail it returns the last attempt's error wrapped by
`errors.Trace`. -/
theorem removeSelfVersionPath_retry_semantics
    (delRes : Nat → String → Option GoError) (id : String) :
    (countDels (removeSelfVersionPath delRes id).2 ≤ 3
     ∧ countSleeps (removeSelfVersionPath delRes id).2 = 0
     ∧ ∀ ev ∈ (removeSelfVersionPath delRes id).2,
         ∃ i, i < 3 ∧ ev = .delOp i (selfSchemaVerPath id) keyOpDefaultTimeout)
    ∧ (∀ e0 e1 e2,
        delRes 0 (selfSchemaVerPath id) = some e0 →
        delRes 1 (selfSchemaVerPath id) = some e1 →
        delRes 2 (selfSchemaVerPath id) = some e2 →
        (removeSelfVersionPath delRes id).1 = some (.traced e2)) := by
  have hu : removeSelfVersionPath delRes id
      = removeLoop delRes (selfSchemaVerPath id) 3 0 none := rfl
  constructor
  · obtain ⟨hs, hc, hall⟩ :=
      removeLoop_trace_shape delRes (selfSchemaVerPath id) 3 0 none
    refine ⟨by rw [hu]; exact hc, by rw [hu]; exact hs, ?_⟩
    intro ev hev
    rw [hu] at hev
    obtain ⟨j, _, hj2, hj3⟩ := hall ev hev
    exact ⟨j, by omega, hj3⟩
  · intro e0 e1 e2 h0 h1 h2
    have h := removeLoop_all_fail delRes (selfSchemaVerPath id)
      (fun j => if j = 0 then e0 else if j = 1 then e1 else e2) 2 0
      (by intro j hj
          interval_cases j <;> simpa using ‹_›)
      none
    rw [hu]
    simpa using h

/-- Witness for `removeSelfVersionPath_retry_semantics`: all three deletes
failing yields the traced last error. -/
theorem removeSelfVersionPath_retry_semantics_witness :
    (removeSelfVersionPath
      (fun i _ => some (.store (toString i))) "n1").1
      = some (.traced (.store "2")) :=
  (removeSelfVersionPath_retry_semantics
    (fun i _ => some (.store (toString i))) "n1").2
    (.store "0") (.store "1") (.store "2") rfl rfl rfl

/-- C9: the bootstrap transaction of `Init` is an atomic create-if-absent:
it writes `"0"` only when `GlobalVersion` does not exist and touches no
other key, it leaves an existing `GlobalVersion` value unchanged, and after
any positive number of bootstraps (one per initializing node) the key holds
exactly one value — the pre-existing one, or `"0"` on a fresh store. -/
theorem initBootstrap_idempotent :
    (∀ store : Store, store ddlGlobalSchemaVersion = none →
       initBootstrap store ddlGlobalSchemaVersion = some initialVersion
       ∧ ∀ k, k ≠ ddlGlobalSchemaVersion → initBootstrap store k = store k)
    ∧ (∀ store : Store, ∀ v, store ddlGlobalSchemaVersion = some v →
       initBootstrap store = store)
    ∧ (∀ store : Store, ∀ n, 1 ≤ n →
       (initBootstrap^[n] store) ddlGlobalSchemaVersion
         = some ((store ddlGlobalSchemaVersion).getD initialVersion)) := by
  have habsent : ∀ store : Store, store ddlGlobalSchemaVersion = none →
      initBootstrap store ddlGlobalSchemaVersion = some initialVersion := by
    intro store h
    unfold initBootstrap
    rw [if_pos h, if_pos rfl]
  have hpresent : ∀ store : Store, ∀ v, store ddlGlobalSchemaVersion = some v →
      initBootstrap store = store := by
    intro store v h
    unfold initBootstrap
    rw [if_neg (by rw [h]; exact fun hc => Option.noConfusion hc)]
  have honce : ∀ store : Store,
      (initBootstrap store) ddlGlobalSchemaVersion
        = some ((store ddlGlobalSchemaVersion).getD initialVersion) := by
    intro store
    cases h : store ddlGlobalSchemaVersion with
    | none => rw [habsent store h]; rfl
    | some v => rw [hpresent store v h, h]; rfl
  refine ⟨?_, hpresent, ?_⟩
  · intro store h
    refine ⟨habsent store h, ?_⟩
    intro k hk
    unfold initBootstrap
    rw [if_pos h, if_neg hk]
  · intro store n hn
    induction n with
    | zero => omega
    | succ n ih =>
      cases Nat.eq_zero_or_pos n with
      | inl h0 =>
        subst h0
        rw [Function.iterate_one]
        exact honce store
      | inr hpos =>
        rw [Function.iterate_succ_apply', honce (initBootstrap^[n] store),
          ih (by omega)]
        rfl

/-- Witness for `initBootstrap_idempotent`: two nodes bootstrapping an
empty store leave `GlobalVersion` at `"0"`. -/
theorem initBootstrap_idempotent_witness :
    (initBootstrap^[2] (fun _ => none)) ddlGlobalSchemaVersion = some "0" :=
  initBootstrap_idempotent.2.2 (fun _ => none) 2 (by omega)

theorem scanKvs_skip_mem (latestVer : Int) (memo : List String)
    (k v : String) (rest : List (String × String)) (h : k ∈ memo) :
    scanKvs latestVer memo ((k, v) :: rest) = scanKvs latestVer memo rest := by
  simp [scanKvs, h]

theorem scanKvs_memo_mono (latestVer : Int) :
    ∀ kvs memo, ∃ add, (scanKvs latestVer memo kvs).2 = memo ++ add := by
  intro kvs
  induction kvs with
  | nil => intro memo; exact ⟨[], by simp [scanKvs]⟩
  | cons kv rest ih =>
    intro memo
    obtain ⟨k, v⟩ := kv
    by_cases hk : k ∈ memo
    · rw [scanKvs_skip_mem latestVer memo k v rest hk]
      exact ih memo
    · cases hv : atoi v with
      | none => exact ⟨[], by simp [scanKvs, hk, hv]⟩
      | some ver =>
        by_cases hne : ver = latestVer
        · rw [hne] at hv
          obtain ⟨add, hadd⟩ := ih (memo ++ [k])
          refine ⟨[k] ++ add, ?_⟩
          rw [show scanKvs latestVer memo ((k, v) :: rest)
              = scanKvs latestVer (memo ++ [k]) rest by
            simp [scanKvs, hk, hv]]
          rw [hadd, List.append_assoc]
        · refine ⟨[], by simp [scanKvs, hk, hv, hne]⟩

/-- On a scan whose keys are distinct, the inner record scan succeeds
exactly when every record is already memoized or parses to the target
version. -/
theorem scanKvs_true_iff (latestVer : Int) :
    ∀ kvs memo, (kvs.map Prod.fst).Nodup →
    ((scanKvs latestVer memo kvs).1 = true
      ↔ ∀ kv ∈ kvs, kv.1 ∈ memo ∨ atoi kv.2 = some latestVer) := by
  intro kvs
  induction kvs with
  | nil => intro memo _; simp [scanKvs]
  | cons kv rest ih =>
    intro memo hnd
    obtain ⟨k, v⟩ := kv
    rw [List.map_cons, List.nodup_cons] at hnd
    obtain ⟨hknotin, hndrest⟩ := hnd
    by_cases hk : k ∈ memo
    · rw [scanKvs_skip_mem latestVer memo k v rest hk]
      rw [ih memo hndrest]
      constructor
      · intro h kv hkv
        rcases List.mem_cons.mp hkv with h1 | h1
        · subst h1; exact Or.inl hk
        · exact h kv h1
      · intro h kv hkv
        exact h kv (List.mem_cons_of_mem _ hkv)
    · cases hv : atoi v with
      | none =>
        rw [show (scanKvs latestVer memo ((k, v) :: rest)).1 = false by
          simp [scanKvs, hk, hv]]
        simp only [Bool.false_eq_true, false_iff]
        intro h
        rcases h (k, v) (List.mem_cons_self _ _) with h1 | h1
        · exact hk h1
        · rw [hv] at h1; exact Option.noConfusion h1
      | some ver =>
        by_cases hne : ver = latestVer
        · rw [hne] at hv
          rw [show scanKvs latestVer memo ((k, v) :: rest)
              = scanKvs latestVer (memo ++ [k]) rest by
            simp [scanKvs, hk, hv]]
          rw [ih (memo ++ [k]) hndrest]
          constructor
          · intro h kv hkv
            rcases List.mem_cons.mp hkv with h1 | h1
            · subst h1; exact Or.inr hv
            · rcases h kv h1 with h2 | h2
              · rcases List.mem_append.mp h2 with h3 | h3
                · exact Or.inl h3
                · exfalso
                  have h4 : kv.1 = k := by simpa using h3
                  have h5 : kv.1 ∈ List.map Prod.fst rest :=
                    List.mem_map_of_mem Prod.fst h1
                  rw [h4] at h5
                  exact hknotin h5
              · exact Or.inr h2
          · intro h kv hkv
            rcases h kv (List.mem_cons_of_mem _ hkv) with h1 | h1
            · exact Or.inl (List.mem_append.mpr (Or.inl h1))
            · exact Or.inr h1
        · rw [show (scanKvs latestVer memo ((k, v) :: rest)).1 = false by
            simp [scanKvs, hk, hv, hne]]
          simp only [Bool.false_eq_true, false_iff]
          intro h
          rcases h (k, v) (List.mem_cons_self _ _) with h1 | h1
          · exact hk h1
          · rw [hv] at h1
            exact hne (Option.some_injective _ h1)

/-- Appending more records after a fully matching block continues the scan
from the extended memo set. -/
theorem scanKvs_append_of_true (latestVer : Int) :
    ∀ l memo, (scanKvs latestVer memo l).1 = true →
    ∀ xs, scanKvs latestVer memo (l ++ xs)
      = scanKvs latestVer (scanKvs latestVer memo l).2 xs := by
  intro l
  induction l with
  | nil => intro memo _ xs; simp [scanKvs]
  | cons kv rest ih =>
    intro memo h xs
    obtain ⟨k, v⟩ := kv
    by_cases hk : k ∈ memo
    · rw [scanKvs_skip_mem latestVer memo k v rest hk] at h ⊢
      rw [show ((k, v) :: rest) ++ xs = (k, v) :: (rest ++ xs) from rfl,
        scanKvs_skip_mem latestVer memo k v (rest ++ xs) hk]
      exact ih memo h xs
    · cases hv : atoi v with
      | none =>
        rw [show (scanKvs latestVer memo ((k, v) :: rest)).1 = false by
          simp [scanKvs, hk, hv]] at h
        exact absurd h (by simp)
      | some ver =>
        by_cases hne : ver = latestVer
        · rw [hne] at hv
          have hstep : scanKvs latestVer memo ((k, v) :: rest)
              = scanKvs latestVer (memo ++ [k]) rest := by
            simp [scanKvs, hk, hv]
          rw [hstep] at h ⊢
          rw [show ((k, v) :: rest) ++ xs = (k, v) :: (rest ++ xs) from rfl]
          rw [show scanKvs latestVer memo ((k, v) :: (rest ++ xs))
              = scanKvs latestVer (memo ++ [k]) (rest ++ xs) by
            simp [scanKvs, hk, hv]]
          exact ih (memo ++ [k]) h xs
        · rw [show (scanKvs latestVer memo ((k, v) :: rest)).1 = false by
            simp [scanKvs, hk, hv, hne]] at h
          exact absurd h (by simp)

theorem ownerCheckLoop_step_ctxDone (ctxErr : GoError) (latestVer : Int)
    (memo : List String) (r : Round) (rest : List Round)
    (hc : r.ctxDone = true) :
    ownerCheckLoop ctxErr latestVer memo (r :: rest) = (.retErr ctxErr, []) := by
  simp [ownerCheckLoop, hc]

theorem ownerCheckLoop_step_scanErr_ctx (ctxErr : GoError) (latestVer : Int)
    (memo : List String) (r : Round) (rest : List Round) (e : GoError)
    (hc : r.ctxDone = false) (hs : r.scan = .error e)
    (he : isContextFinished e = true) :
    ownerCheckLoop ctxErr latestVer memo (r :: rest)
      = (.retErr e, [.scanEv]) := by
  simp [ownerCheckLoop, hc, hs, he]

theorem ownerCheckLoop_step_scanErr_retry (ctxErr : GoError) (latestVer : Int)
    (memo : List String) (r : Round) (rest : List Round) (e : GoError)
    (hc : r.ctxDone = false) (hs : r.scan = .error e)
    (he : isContextFinished e = false) :
    ownerCheckLoop ctxErr latestVer memo (r :: rest)
      = ((ownerCheckLoop ctxErr latestVer memo rest).1,
         .scanEv :: (ownerCheckLoop ctxErr latestVer memo rest).2) := by
  simp [ownerCheckLoop, hc, hs, he]

theorem ownerCheckLoop_step_converged (ctxErr : GoError) (latestVer : Int)
    (memo : List String) (r : Round) (rest : List Round)
    (kvs : List (String × String))
    (hc : r.ctxDone = false) (hs : r.scan = .ok kvs)
    (ht : (scanKvs latestVer memo kvs).1 = true) :
    ownerCheckLoop ctxErr latestVer memo (r :: rest)
      = (.retNil kvs memo, [.scanEv]) := by
  rcases hsk : scanKvs latestVer memo kvs with ⟨b, memo2⟩
  rw [hsk] at ht
  simp only at ht
  subst ht
  simp [ownerCheckLoop, hc, hs, hsk]

theorem ownerCheckLoop_step_notConverged (ctxErr : GoError) (latestVer : Int)
    (memo : List String) (r : Round) (rest : List Round)
    (kvs : List (String × String))
    (hc : r.ctxDone = false) (hs : r.scan = .ok kvs)
    (ht : (scanKvs latestVer memo kvs).1 = false) :
    ownerCheckLoop ctxErr latestVer memo (r :: rest)
      = ((ownerCheckLoop ctxErr latestVer (scanKvs latestVer memo kvs).2 rest).1,
         .scanEv :: .sleepPoll ::
           (ownerCheckLoop ctxErr latestVer (scanKvs latestVer memo kvs).2 rest).2) := by
  rcases hsk : scanKvs latestVer memo kvs with ⟨b, memo2⟩
  rw [hsk] at ht
  simp only at ht
  subst ht
  simp [ownerCheckLoop, hc, hs, hsk]

theorem ownerCheckLoop_append (ctxErr : GoError) (latestVer : Int) :
    ∀ pre memo post m,
    (ownerCheckLoop ctxErr latestVer memo pre).1 = .fuelOut m →
    ownerCheckLoop ctxErr latestVer memo (pre ++ post)
      = ((ownerCheckLoop ctxErr latestVer m post).1,
         (ownerCheckLoop ctxErr latestVer memo pre).2
           ++ (ownerCheckLoop ctxErr latestVer m post).2) := by
  intro pre
  induction pre with
  | nil =>
    intro memo post m h
    have hm : memo = m := by
      have h' : Outcome.fuelOut memo = Outcome.fuelOut m := h
      injection h'
    subst hm
    simp [ownerCheckLoop]
  | cons r rest ih =>
    intro memo post m h
    cases hc : r.ctxDone with
    | true =>
      rw [ownerCheckLoop_step_ctxDone ctxErr latestVer memo r rest hc] at h
      exact absurd h (by simp)
    | false =>
      cases hs : r.scan with
      | error e =>
        cases he : isContextFinished e with
        | true =>
          rw [ownerCheckLoop_step_scanErr_ctx ctxErr latestVer memo r rest e hc hs he] at h
          exact absurd h (by simp)
        | false =>
          rw [ownerCheckLoop_step_scanErr_retry ctxErr latestVer memo r rest e hc hs he] at h
          have h' : (ownerCheckLoop ctxErr latestVer memo rest).1 = .fuelOut m := h
          rw [show (r :: rest) ++ post = r :: (rest ++ post) from rfl,
            ownerCheckLoop_step_scanErr_retry ctxErr latestVer memo r (rest ++ post) e hc hs he,
            ownerCheckLoop_step_scanErr_retry ctxErr latestVer memo r rest e hc hs he,
            ih memo post m h']
          rfl
      | ok kvs =>
        cases ht : (scanKvs latestVer memo kvs).1 with
        | true =>
          rw [ownerCheckLoop_step_converged ctxErr latestVer memo r rest kvs hc hs ht] at h
          exact absurd h (by simp)
        | false =>
          rw [ownerCheckLoop_step_notConverged ctxErr latestVer memo r rest kvs hc hs ht] at h
          have h' : (ownerCheckLoop ctxErr latestVer
              (scanKvs latestVer memo kvs).2 rest).1 = .fuelOut m := h
          rw [show (r :: rest) ++ post = r :: (rest ++ post) from rfl,
            ownerCheckLoop_step_notConverged ctxErr latestVer memo r (rest ++ post) kvs hc hs ht,
            ownerCheckLoop_step_notConverged ctxErr latestVer memo r rest kvs hc hs ht,
            ih (scanKvs latestVer memo kvs).2 post m h']
          rfl

theorem ownerCheckLoop_retNil_split (ctxErr : GoError) (latestVer : Int) :
    ∀ rounds memo kvs m,
    (ownerCheckLoop ctxErr latestVer memo rounds).1 = .retNil kvs m →
    ∃ pre r post, rounds = pre ++ r :: post
      ∧ (ownerCheckLoop ctxErr latestVer memo pre).1 = .fuelOut m
      ∧ r.ctxDone = false ∧ r.scan = .ok kvs
      ∧ (scanKvs latestVer m kvs).1 = true := by
  intro rounds
  induction rounds with
  | nil =>
    intro memo kvs m h
    exact absurd h (by simp [ownerCheckLoop])
  | cons r rest ih =>
    intro memo kvs m h
    cases hc : r.ctxDone with
    | true =>
      rw [ownerCheckLoop_step_ctxDone ctxErr latestVer memo r rest hc] at h
      exact absurd h (by simp)
    | false =>
      cases hs : r.scan with
      | error e =>
        cases he : isContextFinished e with
        | true =>
          rw [ownerCheckLoop_step_scanErr_ctx ctxErr latestVer memo r rest e hc hs he] at h
          exact absurd h (by simp)
        | false =>
          rw [ownerCheckLoop_step_scanErr_retry ctxErr latestVer memo r rest e hc hs he] at h
          obtain ⟨pre, r', post, hsplit, hpre, hc', hs', ht'⟩ :=
            ih memo kvs m h
          refine ⟨r :: pre, r', post, by rw [hsplit]; rfl, ?_, hc', hs', ht'⟩
          rw [ownerCheckLoop_step_scanErr_retry ctxErr latestVer memo r pre e hc hs he]
          exact hpre
      | ok kvs0 =>
        cases ht : (scanKvs latestVer memo kvs0).1 with
        | true =>
          rw [ownerCheckLoop_step_converged ctxErr latestVer memo r rest kvs0 hc hs ht] at h
          have h' : Outcome.retNil kvs0 memo = .retNil kvs m := h
          injection h' with h1 h2
          subst h1
          subst h2
          exact ⟨[], r, rest, rfl, rfl, hc, hs, ht⟩
        | false =>
          rw [ownerCheckLoop_step_notConverged ctxErr latestVer memo r rest kvs0 hc hs ht] at h
          obtain ⟨pre, r', post, hsplit, hpre, hc', hs', ht'⟩ :=
            ih (scanKvs latestVer memo kvs0).2 kvs m h
          refine ⟨r :: pre, r', post, by rw [hsplit]; rfl, ?_, hc', hs', ht'⟩
          rw [ownerCheckLoop_step_notConverged ctxErr latestVer memo r pre kvs0 hc hs ht]
          exact hpre

theorem ownerCheckLoop_memo_mono (ctxErr : GoError) (latestVer : Int) :
    ∀ rounds memo,
    (∀ m, (ownerCheckLoop ctxErr latestVer memo rounds).1 = .fuelOut m →
      ∃ add, m = memo ++ add)
    ∧ (∀ kvs m, (ownerCheckLoop ctxErr latestVer memo rounds).1 = .retNil kvs m →
      ∃ add, m = memo ++ add) := by
  intro rounds
  induction rounds with
  | nil =>
    intro memo
    constructor
    · intro m h
      have h' : Outcome.fuelOut memo = Outcome.fuelOut m := h
      injection h' with h1
      exact ⟨[], by rw [← h1]; simp⟩
    · intro kvs m h
      exact absurd h (by simp [ownerCheckLoop])
  | cons r rest ih =>
    intro memo
    cases hc : r.ctxDone with
    | true =>
      rw [ownerCheckLoop_step_ctxDone ctxErr latestVer memo r rest hc]
      exact ⟨fun m h => absurd h (by simp), fun kvs m h => absurd h (by simp)⟩
    | false =>
      cases hs : r.scan with
      | error e =>
        cases he : isContextFinished e with
        | true =>
          rw [ownerCheckLoop_step_scanErr_ctx ctxErr latestVer memo r rest e hc hs he]
          exact ⟨fun m h => absurd h (by simp), fun kvs m h => absurd h (by simp)⟩
        | false =>
          rw [ownerCheckLoop_step_scanErr_retry ctxErr latestVer memo r rest e hc hs he]
          exact ⟨fun m h => (ih memo).1 m h, fun kvs m h => (ih memo).2 kvs m h⟩
      | ok kvs0 =>
        cases ht : (scanKvs latestVer memo kvs0).1 with
        | true =>
          rw [ownerCheckLoop_step_converged ctxErr latestVer memo r rest kvs0 hc hs ht]
          constructor
          · intro m h
            exact absurd h (by simp)
          · intro kvs m h
            have h' : Outcome.retNil kvs0 memo = .retNil kvs m := h
            injection h' with h1 h2
            exact ⟨[], by rw [← h2]; simp⟩
        | false =>
          rw [ownerCheckLoop_step_notConverged ctxErr latestVer memo r rest kvs0 hc hs ht]
          obtain ⟨add1, hadd1⟩ := scanKvs_memo_mono latestVer kvs0 memo
          constructor
          · intro m h
            obtain ⟨add2, hadd2⟩ := (ih (scanKvs latestVer memo kvs0).2).1 m h
            exact ⟨add1 ++ add2, by rw [hadd2, hadd1, List.append_assoc]⟩
          · intro kvs m h
            obtain ⟨add2, hadd2⟩ := (ih (scanKvs latestVer memo kvs0).2).2 kvs m h
            exact ⟨add1 ++ add2, by rw [hadd2, hadd1, List.append_assoc]⟩

/-- C1 counterexample: with target version 5, a first scan sees A at "5"
(memoized) and B at "4"; a second scan sees A changed to "6" and B at "5".
`OwnerCheckAllVersions` returns nil because A is skipped as memoized, yet
the record ("A", "6") present at the final successful scan does not equal
the target version — refuting the claimed "only if" direction. -/
theorem ownerCheck_stale_memo_counterexample :
    (ownerCheckAllVersions .canceled 5
      [⟨false, .ok [("A", "5"), ("B", "4")]⟩,
       ⟨false, .ok [("A", "6"), ("B", "5")]⟩]).1
      = .retNil [("A", "6"), ("B", "5")] ["A"]
    ∧ ("A", "6") ∈ [("A", "6"), ("B", "5")]
    ∧ atoi "6" ≠ some 5 := by
  refine ⟨rfl, by decide, by decide⟩

/-- C1 (amended): over any per-round store behaviour whose scans have
distinct keys, `OwnerCheckAllVersions(ctx, V)` returns nil exactly when the
polling loop reaches a round whose context is not done and whose successful
scan contains only records that are memoized from earlier rounds or parse
to `V`; when it returns nil, every record of the final scan is memoized or
equals `V`; and if the context is done at the top of a reached round the
call returns the context's error. -/
theorem ownerCheckAllVersions_nil_iff (ctxErr : GoError) (latestVer : Int)
    (rounds : List Round)
    (hnd : ∀ r ∈ rounds, ∀ kvs, r.scan = .ok kvs → (kvs.map Prod.fst).Nodup) :
    ((∃ kvs memo,
        (ownerCheckAllVersions ctxErr latestVer rounds).1 = .retNil kvs memo)
      ↔ (∃ pre r post m kvs, rounds = pre ++ r :: post
          ∧ (ownerCheckLoop ctxErr latestVer [] pre).1 = .fuelOut m
          ∧ r.ctxDone = false ∧ r.scan = .ok kvs
          ∧ ∀ kv ∈ kvs, kv.1 ∈ m ∨ atoi kv.2 = some latestVer))
    ∧ (∀ kvs memo,
        (ownerCheckAllVersions ctxErr latestVer rounds).1 = .retNil kvs memo →
        ∀ kv ∈ kvs, kv.1 ∈ memo ∨ atoi kv.2 = some latestVer)
    ∧ (∀ pre r post m, rounds = pre ++ r :: post →
        (ownerCheckLoop ctxErr latestVer [] pre).1 = .fuelOut m →
        r.ctxDone = true →
        (ownerCheckAllVersions ctxErr latestVer rounds).1 = .retErr ctxErr) := by
  refine ⟨⟨?_, ?_⟩, ?_, ?_⟩
  · rintro ⟨kvs, memo, h⟩
    have h' : (ownerCheckLoop ctxErr latestVer [] rounds).1 = .retNil kvs memo := h
    obtain ⟨pre, r, post, hsplit, hpre, hc, hs, ht⟩ :=
      ownerCheckLoop_retNil_split ctxErr latestVer rounds [] kvs memo h'
    have hmem : r ∈ rounds := by
      rw [hsplit]
      exact List.mem_append_right _ (List.mem_cons_self _ _)
    have hcond := (scanKvs_true_iff latestVer kvs memo (hnd r hmem kvs hs)).mp ht
    exact ⟨pre, r, post, memo, kvs, hsplit, hpre, hc, hs, hcond⟩
  · rintro ⟨pre, r, post, m, kvs, hsplit, hpre, hc, hs, hcond⟩
    have hmem : r ∈ rounds := by
      rw [hsplit]
      exact List.mem_append_right _ (List.mem_cons_self _ _)
    have ht := (scanKvs_true_iff latestVer kvs m (hnd r hmem kvs hs)).mpr hcond
    refine ⟨kvs, m, ?_⟩
    show (ownerCheckLoop ctxErr latestVer [] rounds).1 = _
    rw [hsplit,
      ownerCheckLoop_append ctxErr latestVer pre [] (r :: post) m hpre]
    show (ownerCheckLoop ctxErr latestVer m (r :: post)).1 = _
    rw [ownerCheckLoop_step_converged ctxErr latestVer m r post kvs hc hs ht]
  · intro kvs memo h
    have h' : (ownerCheckLoop ctxErr latestVer [] rounds).1 = .retNil kvs memo := h
    obtain ⟨pre, r, post, hsplit, hpre, hc, hs, ht⟩ :=
      ownerCheckLoop_retNil_split ctxErr latestVer rounds [] kvs memo h'
    have hmem : r ∈ rounds := by
      rw [hsplit]
      exact List.mem_append_right _ (List.mem_cons_self _ _)
    exact (scanKvs_true_iff latestVer kvs memo (hnd r hmem kvs hs)).mp ht
  · intro pre r post m hsplit hpre hcdone
    show (ownerCheckLoop ctxErr latestVer [] rounds).1 = _
    rw [hsplit,
      ownerCheckLoop_append ctxErr latestVer pre [] (r :: post) m hpre]
    show (ownerCheckLoop ctxErr latestVer m (r :: post)).1 = _
    rw [ownerCheckLoop_step_ctxDone ctxErr latestVer m r post hcdone]

/-- Witness for `ownerCheckAllVersions_nil_iff`: a context done at the very
first round makes the call return the context error. -/
theorem ownerCheckAllVersions_nil_iff_witness :
    (ownerCheckAllVersions .canceled 5 [⟨true, .ok []⟩]).1
      = .retErr .canceled :=
  (ownerCheckAllVersions_nil_iff .canceled 5 [⟨true, .ok []⟩]
    (by intro r hr kvs hk
        rw [List.mem_singleton] at hr
        subst hr
        injection hk with h
        subst h
        exact List.nodup_nil)).2.2
    [] ⟨true, .ok []⟩ [] [] rfl rfl rfl

/-- C6: a record value that fails integer parsing marks the round as not
converged and stops the scan of the remaining records of that round (the
memo set stays exactly what the matching prefix produced), and the polling
loop continues with the next round instead of returning an error. -/
theorem ownerCheck_malformed_not_fatal (ctxErr : GoError) (latestVer : Int)
    (memo : List String) (l : List (String × String)) (k v : String)
    (rest : List (String × String)) (rounds : List Round)
    (hl : (scanKvs latestVer memo l).1 = true)
    (hk : k ∉ (scanKvs latestVer memo l).2)
    (hv : atoi v = none) :
    scanKvs latestVer memo (l ++ (k, v) :: rest)
      = (false, (scanKvs latestVer memo l).2)
    ∧ (ownerCheckLoop ctxErr latestVer memo
        ((⟨false, .ok (l ++ (k, v) :: rest)⟩ : Round) :: rounds)).1
      = (ownerCheckLoop ctxErr latestVer (scanKvs latestVer memo l).2
          rounds).1 := by
  have h1 : scanKvs latestVer memo (l ++ (k, v) :: rest)
      = (false, (scanKvs latestVer memo l).2) := by
    rw [scanKvs_append_of_true latestVer l memo hl ((k, v) :: rest)]
    simp [scanKvs, hk, hv]
  refine ⟨h1, ?_⟩
  rw [ownerCheckLoop_step_notConverged ctxErr latestVer memo
    (⟨false, .ok (l ++ (k, v) :: rest)⟩ : Round) rounds
    (l ++ (k, v) :: rest) rfl rfl (by rw [h1]), h1]

/-- Witness for `ownerCheck_malformed_not_fatal`: the record ("B", "abc")
stops the scan after A matched, leaving C unexamined, and the loop keeps
polling. -/
theorem ownerCheck_malformed_not_fatal_witness :
    scanKvs 5 [] ([("A", "5")] ++ ("B", "abc") :: [("C", "5")])
      = (false, (scanKvs 5 [] [("A", "5")]).2)
    ∧ (ownerCheckLoop .canceled 5 []
        ((⟨false, .ok ([("A", "5")] ++ ("B", "abc") :: [("C", "5")])⟩ : Round)
          :: [])).1
      = (ownerCheckLoop .canceled 5 (scanKvs 5 [] [("A", "5")]).2 []).1 :=
  ownerCheck_malformed_not_fatal .canceled 5 [] [("A", "5")] "B" "abc"
    [("C", "5")] [] (by decide) (by decide) (by decide)

/-- C7: on a prefix-scan error the loop returns the error immediately when
it is a context cancellation/deadline error and otherwise retries at once —
its trace gains only the scan event, with no polling sleep — unlike a
not-converged round, whose trace gains the scan event and a polling
sleep. -/
theorem ownerCheck_scan_error_policy (ctxErr : GoError) (latestVer : Int)
    (memo : List String) (e : GoError) (rounds : List Round)
    (kvs : List (String × String)) :
    (isContextFinished e = true →
      ownerCheckLoop ctxErr latestVer memo
        ((⟨false, .error e⟩ : Round) :: rounds)
        = (.retErr e, [.scanEv]))
    ∧ (isContextFinished e = false →
      ownerCheckLoop ctxErr latestVer memo
        ((⟨false, .error e⟩ : Round) :: rounds)
        = ((ownerCheckLoop ctxErr latestVer memo rounds).1,
           .scanEv :: (ownerCheckLoop ctxErr latestVer memo rounds).2))
    ∧ ((scanKvs latestVer memo kvs).1 = false →
      ownerCheckLoop ctxErr latestVer memo
        ((⟨false, .ok kvs⟩ : Round) :: rounds)
        = ((ownerCheckLoop ctxErr latestVer
              (scanKvs latestVer memo kvs).2 rounds).1,
           .scanEv :: .sleepPoll ::
             (ownerCheckLoop ctxErr latestVer
               (scanKvs latestVer memo kvs).2 rounds).2)) :=
  ⟨fun he => ownerCheckLoop_step_scanErr_ctx ctxErr latestVer memo _ rounds e
      rfl rfl he,
   fun he => ownerCheckLoop_step_scanErr_retry ctxErr latestVer memo _ rounds e
      rfl rfl he,
   fun ht => ownerCheckLoop_step_notConverged ctxErr latestVer memo _ rounds kvs
      rfl rfl ht⟩

/-- Witness for `ownerCheck_scan_error_policy`: a canceled-context scan
error returns immediately. -/
theorem ownerCheck_scan_error_policy_witness :
    ownerCheckLoop .canceled 5 [] ((⟨false, .error .canceled⟩ : Round) :: [])
      = (.retErr .canceled, [.scanEv]) :=
  (ownerCheck_scan_error_policy .canceled 5 [] .canceled [] []).1 rfl

/-- C8: within one `OwnerCheckAllVersions` call the ConvergenceSet
(`updatedMap`) only ever grows — a record whose key is in it is skipped
without any comparison, the inner scan only appends to it, and across any
run of the polling loop (whether still running or returning nil) the final
memo extends the initial one. -/
theorem convergenceSet_monotone (ctxErr : GoError) (latestVer : Int) :
    (∀ memo k v rest, k ∈ memo →
      scanKvs latestVer memo ((k, v) :: rest) = scanKvs latestVer memo rest)
    ∧ (∀ memo kvs, ∃ add, (scanKvs latestVer memo kvs).2 = memo ++ add)
    ∧ (∀ rounds memo m,
        (ownerCheckLoop ctxErr latestVer memo rounds).1 = .fuelOut m →
        ∃ add, m = memo ++ add)
    ∧ (∀ rounds memo kvs m,
        (ownerCheckLoop ctxErr latestVer memo rounds).1 = .retNil kvs m →
        ∃ add, m = memo ++ add) :=
  ⟨fun memo k v rest h => scanKvs_skip_mem latestVer memo k v rest h,
   fun memo kvs => scanKvs_memo_mono latestVer kvs memo,
   fun rounds memo m h =>
     (ownerCheckLoop_memo_mono ctxErr latestVer rounds memo).1 m h,
   fun rounds memo kvs m h =>
     (ownerCheckLoop_memo_mono ctxErr latestVer rounds memo).2 kvs m h⟩

/-- Witness for `convergenceSet_monotone`: a memoized key is skipped even
when its current value mismatches, and a concrete two-round run only grows
the memo set. -/
theorem convergenceSet_monotone_witness :
    scanKvs 5 ["A"] [("A", "9")] = scanKvs 5 ["A"] []
    ∧ ∃ add, ["A"] = ([] : List String) ++ add :=
  ⟨(convergenceSet_monotone .canceled 5).1 ["A"] "A" "9" [] (by decide),
   (convergenceSet_monotone .canceled 5).2.2.2
     [⟨false, .ok [("A", "5"), ("B", "4")]⟩,
      ⟨false, .ok [("A", "6"), ("B", "5")]⟩]
     [] [("A", "6"), ("B", "5")] ["A"] rfl⟩

end Syncer
